import Mathlib

/-!
Verification of the linear BVH (bounding volume hierarchy) of axom::spin.

The development shallowly embeds `src/axom/spin/BVH.hpp` (the query facade:
`BVH::build`, `BVH::find`, `BVH::getBounds`, `BVH::setScaleFactor`,
`bvh_get_counts`, the return codes, and the allocator bookkeeping around each
call).  The internal headers (`aabb.hpp`, `build_radix_tree.hpp`,
`emit_bvh.hpp`, `bvh_traverse.hpp`, `TraversalPredicates.hpp`,
`QueryAccessor.hpp`, `BVHData.hpp`) are not part of the sources; those
components are modelled from the specification, as marked on each definition.

Conventions of the embedding:
- `FloatType` is modelled by `ℚ` (exact arithmetic in place of floating point).
- a query point in `NDIMS = n` dimensions is a function `Fin n → ℚ`;
- the caller-supplied box buffer is a flat `List ℚ` laid out exactly as the
  C++ buffer: box `i` occupies entries `[2*n*i, 2*n*i + 2*n)`, min corner
  first (`boxAt`);
- parallel loops (`for_all`, `RAJA` reductions and scans) are modelled by
  their sequential semantics, point by point in index order;
- memory allocation always succeeds; `axom::allocate` is modelled by a log
  entry recording the allocator that the allocation was issued under.
-/

namespace AxomSpin

/-- Modelled from the spec: an axis-aligned bounding box (`aabb.hpp` is not in
the sources).  `min[d] <= max[d]` is not enforced by the type; degenerate
boxes are legal. -/
structure AABB (n : ℕ) where
  lo : Fin n → ℚ
  hi : Fin n → ℚ

/-- Modelled from the spec: the box whose corners are all zero; this is the
value of the fake second box synthesized by `BVH::build` for a single-item
input (all buffer entries of the second box are `0.0`). -/
def zeroAABB (n : ℕ) : AABB n := ⟨fun _ => 0, fun _ => 0⟩

/-- Modelled from the spec: inclusive point-in-box containment test, the
traversal predicate of `TraversalPredicates.hpp` (`pointInLeftBin` /
`pointInRightBin`), evaluated on one child bounding box. -/
def AABB.containsB (b : AABB n) (p : Fin n → ℚ) : Bool :=
  (List.finRange n).all fun d => decide (b.lo d ≤ p d) && decide (p d ≤ b.hi d)

/-- Modelled from the spec: the union (bounding box hull) of two boxes. -/
def AABB.union (a b : AABB n) : AABB n :=
  ⟨fun d => min (a.lo d) (b.lo d), fun d => max (a.hi d) (b.hi d)⟩

/-- Modelled from the spec: expansion of a box by a multiplicative scale
factor around its center (section 4.2: every leaf box is expanded by the
scale factor around its center before storage). -/
def AABB.expand (b : AABB n) (s : ℚ) : AABB n :=
  ⟨fun d => (b.lo d + b.hi d) / 2 - s * ((b.hi d - b.lo d) / 2),
   fun d => (b.lo d + b.hi d) / 2 + s * ((b.hi d - b.lo d) / 2)⟩

/-- Modelled from the spec: union of a list of boxes (the global-bounds
reduction of section 4.1 step 1); the empty list yields the zero box. -/
def unionList : List (AABB n) → AABB n
  | [] => zeroAABB n
  | b :: bs => bs.foldl AABB.union b

/-- Modelled from the spec: the box stored at slot `i` of the flat
coordinate buffer, min corner first, as documented for the `BVH`
constructor. Out-of-range entries read as `0`. -/
def boxAt (flat : List ℚ) (i : ℕ) : AABB n :=
  ⟨fun d => flat.getD (2 * n * i + d.val) 0,
   fun d => flat.getD (2 * n * i + n + d.val) 0⟩

/-- Modelled from the spec: number of Morton bits per axis.  The spec leaves
the width a documented design choice (for example 10 bits per axis in 3D);
this embedding fixes 10 bits per axis in every dimension. -/
def mortonBits : ℕ := 10

/-- Modelled from the spec: a centroid coordinate normalized into `[0,1]`
relative to the global bounds along one axis; a degenerate axis maps to 0. -/
def normalizeCoord (lo hi c : ℚ) : ℚ :=
  if hi = lo then 0 else (c - lo) / (hi - lo)

/-- Modelled from the spec: quantization of a normalized coordinate to a
`mortonBits`-bit integer, clamped into `[0, 2^mortonBits)`. -/
def quantize (t : ℚ) : ℕ :=
  min (Int.toNat ⌊t * (2 ^ mortonBits : ℕ)⌋) (2 ^ mortonBits - 1)

/-- Modelled from the spec: the centroid of a box along one axis. -/
def AABB.centroid (b : AABB n) (d : Fin n) : ℚ := (b.lo d + b.hi d) / 2

/-- Modelled from the spec: bit interleaving of the per-axis quantized
coordinates; bit `i` of axis `d` lands at position `i * n + d` of the Morton
code (Z-order encoding). -/
def interleaveBits (q : Fin n → ℕ) : ℕ :=
  ((List.finRange n).map fun d =>
    ((List.range mortonBits).map fun i => q d / 2 ^ i % 2 * 2 ^ (i * n + d.val)).sum).sum

/-- Modelled from the spec: the Morton code of a box, computed from its
centroid normalized into the global bounds (section 4.1 step 2). -/
def mortonCode (gb b : AABB n) : ℕ :=
  interleaveBits fun d => quantize (normalizeCoord (gb.lo d) (gb.hi d) (b.centroid d))

/-- Modelled from the spec: one sorting record of the radix-tree builder, a
tie-broken sort key together with the original box index and the
scale-expanded box that the leaf will store. -/
abbrev MItem (n : ℕ) := ℕ × ℕ × AABB n

/-- Modelled from the spec: ordered insertion of one record into a sorted
record list, comparing the tie-broken keys. -/
def insertItem (x : MItem n) : List (MItem n) → List (MItem n)
  | [] => [x]
  | y :: ys => if x.1 ≤ y.1 then x :: y :: ys else y :: insertItem x ys

/-- Modelled from the spec: sorting of the `(code, originalIndex)` records by
code ascending with ties broken by original index (section 4.1 step 3).  The
tie-break is realized by appending the original index as low-order key bits,
so sorting the keys is exactly the lexicographic `(code, index)` sort. -/
def sortItems : List (MItem n) → List (MItem n)
  | [] => []
  | x :: xs => insertItem x (sortItems xs)

/-- Modelled from the spec: the intermediate radix tree over the sorted
records.  A leaf carries the original box index and the (scale-expanded) box;
an internal node carries its two child ranges as subtrees. -/
inductive RTree (n : ℕ) where
  | leaf (idx : ℕ) (box : AABB n)
  | node (left right : RTree n)

/-- Modelled from the spec: the bounding box of a subtree, computed bottom-up
as the union of the children's boxes (section 4.2); realized as the
sequential post-order combination that section 9 names as an acceptable
strategy. -/
def RTree.tbox : RTree n → AABB n
  | .leaf _ b => b
  | .node l r => AABB.union l.tbox r.tbox

/-- Modelled from the spec: fallback chain for a key range whose keys are
exhausted (all key bits equal); never reached for the distinct tie-broken
keys, but kept total. -/
def combTree : List (MItem n) → RTree n
  | [] => .leaf 0 (zeroAABB n)
  | [x] => .leaf x.2.1 x.2.2
  | x :: y :: rest => .node (.leaf x.2.1 x.2.2) (combTree (y :: rest))

/-- Modelled from the spec: the binary radix tree over a sorted key range
(section 4.1 steps 4 and 5).  A range of length 1 is a leaf.  Otherwise the
range is split at the most significant key bit not shared by the whole range
- the common-prefix boundary that the C++ discovers by binary search - into
the contiguous span of records with that bit clear followed by the span with
that bit set; bit positions on which the whole range agrees are skipped. -/
def buildTrie : ℕ → List (MItem n) → RTree n
  | _, [] => .leaf 0 (zeroAABB n)
  | _, [x] => .leaf x.2.1 x.2.2
  | 0, xs => combTree xs
  | b + 1, xs =>
    let s := xs.span fun e => !e.1.testBit b
    if s.1.isEmpty || s.2.isEmpty then buildTrie b xs
    else .node (buildTrie b s.1) (buildTrie b s.2)

/-- Modelled from the spec: `build_radix_tree` (the header is not in the
sources). Computes the global bounds as the union of all input boxes, one
tie-broken Morton key per box from its centroid, sorts, and builds the radix
tree whose leaves store the scale-expanded input boxes in sorted order.  The
key appends the original index below the Morton code (`numBoxes` low bits)
so that duplicate codes are tie-broken by original index. -/
def build_radix_tree (flat : List ℚ) (numBoxes : ℕ) (s : ℚ) : AABB n × RTree n :=
  let gb := unionList ((List.range numBoxes).map fun i => boxAt flat i)
  let items : List (MItem n) := (List.range numBoxes).map fun i =>
    (mortonCode gb (boxAt flat i) * 2 ^ numBoxes + i, i, (boxAt flat i).expand s)
  (gb, buildTrie (mortonBits * n + numBoxes) (sortItems items))

/-- Modelled from the spec: a packed child reference of a flattened inner
node - either another inner node or a leaf slot.  The spec licenses using a
real tagged variant in place of the high-bit-tagged integer. -/
inductive ChildRef where
  | innerAt (i : ℕ)
  | leafAt (j : ℕ)

/-- Modelled from the spec: one record of the flattened inner-node array,
holding the two child bounding boxes and the two child references
(`BVHData.hpp` is not in the sources). -/
structure InnerNode (n : ℕ) where
  lbox : AABB n
  rbox : AABB n
  lchild : ChildRef
  rchild : ChildRef

/-- Modelled from the spec: the flattened BVH owned by the facade -
`m_inner_nodes` (length `numBoxes - 1`), `m_leaf_nodes` (the permutation from
flattened leaf slot back to original box index), and `m_bounds` (the root
AABB before scale expansion). -/
structure BVHData (n : ℕ) where
  m_inner_nodes : List (InnerNode n)
  m_leaf_nodes : List ℕ
  m_bounds : AABB n

/-- Modelled from the spec: serialization of the radix tree into the two
flat arrays (`emit_bvh.hpp` is not in the sources).  `emitAux t ib lb`
flattens subtree `t` whose inner nodes start at index `ib` and whose leaf
slots start at index `lb`, in preorder; it returns the emitted inner-node
segment, the emitted leaf segment, and the reference to the subtree root. -/
def emitAux : RTree n → ℕ → ℕ → List (InnerNode n) × List ℕ × ChildRef
  | .leaf i _, _, lbase => ([], [i], .leafAt lbase)
  | .node l r, ibase, lbase =>
    let el := emitAux l (ibase + 1) lbase
    let er := emitAux r (ibase + 1 + el.1.length) (lbase + el.2.1.length)
    (⟨l.tbox, r.tbox, el.2.2, er.2.2⟩ :: (el.1 ++ er.1), el.2.1 ++ er.2.1, .innerAt ibase)

/-- Modelled from the spec: `emit_bvh` - the flattened BVH of a radix tree,
with `m_bounds` set to the global bounds computed by the builder (the facade
assigns `m_bvh.m_bounds = global_bounds` before emission). -/
def emit_bvh (t : RTree n) (gb : AABB n) : BVHData n :=
  ⟨(emitAux t 0 0).1, (emitAux t 0 0).2.1, gb⟩

/-- Modelled from the spec: the reference to the root of the flattened tree;
inner node 0 when inner nodes exist, otherwise the single leaf slot 0. -/
def BVHData.rootRef (bvh : BVHData n) : ChildRef :=
  if bvh.m_inner_nodes.isEmpty then .leafAt 0 else .innerAt 0

/-- Modelled from the spec: the stack-based traversal loop of
`bvh_traverse.hpp` (section 4.3): pop a reference; a leaf slot invokes the
leaf action (here: append the leaf's original index, read off the
`m_leaf_nodes` permutation); an inner node evaluates the two containment
predicates on its child boxes and pushes the children whose predicate holds,
left child processed first.  The fuel argument bounds the number of pops; the
C++ loop runs until the stack empties, and one node count of fuel suffices
because the structure is a tree. -/
def bvhTraverseLoop (bvh : BVHData n) (p : Fin n → ℚ) :
    ℕ → List ChildRef → List ℕ → List ℕ
  | 0, _, acc => acc
  | _ + 1, [], acc => acc
  | fuel + 1, .leafAt j :: stack, acc =>
    bvhTraverseLoop bvh p fuel stack (acc ++ [bvh.m_leaf_nodes.getD j 0])
  | fuel + 1, .innerAt i :: stack, acc =>
    match bvh.m_inner_nodes[i]? with
    | none => bvhTraverseLoop bvh p fuel stack acc
    | some nd =>
      bvhTraverseLoop bvh p fuel
        ((if nd.lbox.containsB p then [nd.lchild] else []) ++
         (if nd.rbox.containsB p then [nd.rchild] else []) ++ stack) acc

/-- Modelled from the spec: `bvh_traverse` for one query point - the list of
original box indices of all leaves reached by the containment predicates,
starting from the root with an empty result and a one-element stack. -/
def bvh_traverse (bvh : BVHData n) (p : Fin n → ℚ) : List ℕ :=
  bvhTraverseLoop bvh p (bvh.m_inner_nodes.length + bvh.m_leaf_nodes.length)
    [bvh.rootRef] []

/-- Recursive reference traversal of the radix tree used by the proofs: a
leaf reports its index; an internal node descends into each child whose
subtree box contains the query point, left first. -/
def RTree.search (p : Fin n → ℚ) : RTree n → List ℕ
  | .leaf i _ => [i]
  | .node l r =>
    (if l.tbox.containsB p then l.search p else []) ++
    (if r.tbox.containsB p then r.search p else [])

/-- Leaves of a radix tree in left-to-right order, with their boxes. -/
def RTree.leafList : RTree n → List (ℕ × AABB n)
  | .leaf i b => [(i, b)]
  | .node l r => l.leafList ++ r.leafList

/-- Number of internal nodes of a radix tree. -/
def RTree.numInner : RTree n → ℕ
  | .leaf _ _ => 0
  | .node l r => l.numInner + r.numInner + 1

/-- Total number of nodes of a radix tree. -/
def RTree.numNodes : RTree n → ℕ
  | .leaf _ _ => 1
  | .node l r => l.numNodes + r.numNodes + 1

/-- Exclusive prefix scan (the semantics of `RAJA::exclusive_scan` with
`plus`, applied by `BVH::find` to turn the counts into the offsets). -/
def exclusiveScan : List ℕ → List ℕ
  | [] => []
  | c :: cs => 0 :: (exclusiveScan cs).map (c + ·)

/-- Count pass of `BVH::find` (from `bvh_get_counts` in `BVH.hpp`): for each
query point, traverse with a leaf action that only counts, and reduce the
grand total. -/
def bvh_get_counts (bvh : BVHData n) (pts : List (Fin n → ℚ)) : List ℕ × ℕ :=
  let counts := pts.map fun p => (bvh_traverse bvh p).length
  (counts, counts.sum)

/-- Core of `BVH::find` (from `BVH.hpp`): the count pass, the exclusive scan
of the counts into the offsets, allocation of the candidates array of exactly
the total size, and the fill pass re-running the identical traversal and
writing each query's candidates at its offset - so the candidates array is
the concatenation of the per-query candidate lists in query order.  Returns
`(offsets, counts, candidates)`. -/
def findCore (bvh : BVHData n) (pts : List (Fin n → ℚ)) :
    List ℕ × List ℕ × List ℕ :=
  let counts := (bvh_get_counts bvh pts).1
  let offsets := exclusiveScan counts
  let candidates := (pts.map fun p => bvh_traverse bvh p).flatten
  (offsets, counts, candidates)

/-- Return code of a failed build (`BVHReturnCodes` in `BVH.hpp`). -/
def BVH_BUILD_FAILED : Int := -1

/-- Return code of a successful build (`BVHReturnCodes` in `BVH.hpp`). -/
def BVH_BUILD_OK : Int := 0

/-- The `BVH` facade object: scale factor, item count, the stored pointer to
the caller's flat box buffer, and the owned flattened tree (from the private
members of the `BVH` class in `BVH.hpp`). -/
structure BVH (n : ℕ) where
  m_scaleFactor : ℚ
  m_numItems : ℕ
  m_boxes : List ℚ
  m_bvh : BVHData n

/-- Default scale factor of the facade (`DEFAULT_SCALE_FACTOR = 1.001`). -/
def DEFAULT_SCALE_FACTOR : ℚ := 1001 / 1000

/-- The `BVH(boxes, numItems)` constructor: stores the buffer and the count
and sets the scale factor to the default; no tree is built yet. -/
def BVH.new (boxes : List ℚ) (numItems : ℕ) : BVH n :=
  ⟨DEFAULT_SCALE_FACTOR, numItems, boxes, ⟨[], [], zeroAABB n⟩⟩

/-- Process state around the facade: the process-wide default allocator ID
that `build()` and `find()` swap and restore, a log of the allocator each
allocation was issued under, and the BVH object. -/
structure World (n : ℕ) where
  defaultAllocatorID : ℕ
  allocLog : List ℕ
  bvh : BVH n

/-- Model of `axom::allocate`: records the allocator the allocation is issued
under (the current process-wide default allocator). -/
def axomAllocate (w : World n) : World n :=
  { w with allocLog := w.allocLog ++ [w.defaultAllocatorID] }

/-- Tree construction of `BVH::build` (steps 1 to 4 of `BVH.hpp`): when
`m_numItems == 1`, the box buffer is padded to two boxes - the loop copies
the `2*n` entries of the single box and fills the `2*n` entries of the fake
second box with `0.0` - and `numBoxes` becomes 2; otherwise the caller's
buffer is used as is.  The radix tree is then built and emitted. -/
def BVH.buildCore (flat : List ℚ) (numItems : ℕ) (s : ℚ) : BVHData n :=
  let numBoxes := if numItems = 1 then 2 else numItems
  let boxesptr := if numItems = 1 then
      (List.range (2 * (2 * n))).map fun i => if i < 2 * n then flat.getD i 0 else 0
    else flat
  let gt := build_radix_tree (n := n) boxesptr numBoxes s
  emit_bvh gt.2 gt.1

/-- Method `BVH::build` from `BVH.hpp`: saves the current default allocator,
swaps in the execution space's allocator, pads the single-item case (one
allocation), allocates and emits the new tree replacing any previous one,
restores the default allocator, and returns `BVH_BUILD_OK` (the only return
statement of the method). -/
def BVH.build (execAllocID : ℕ) (w : World n) : World n × Int :=
  let currentAllocatorID := w.defaultAllocatorID
  let w1 := { w with defaultAllocatorID := execAllocID }
  let w2 := if w.bvh.m_numItems = 1 then axomAllocate w1 else w1
  let w3 := axomAllocate w2
  let w4 := { w3 with bvh := { w3.bvh with
    m_bvh := BVH.buildCore w.bvh.m_boxes w.bvh.m_numItems w.bvh.m_scaleFactor } }
  ({ w4 with defaultAllocatorID := currentAllocatorID }, BVH_BUILD_OK)

/-- Method `BVH::find` from `BVH.hpp`: saves and swaps the default allocator,
runs the count pass, the exclusive scan, the candidates allocation and the
fill pass (`findCore`), restores the default allocator, and returns the three
output arrays. -/
def BVH.find (execAllocID : ℕ) (w : World n) (pts : List (Fin n → ℚ)) :
    World n × (List ℕ × List ℕ × List ℕ) :=
  let currentAllocatorID := w.defaultAllocatorID
  let w1 := { w with defaultAllocatorID := execAllocID }
  let w2 := axomAllocate w1
  ({ w2 with defaultAllocatorID := currentAllocatorID }, findCore w.bvh.m_bvh pts)

/-- Method `BVH::getBounds` from `BVH.hpp`: writes the corners of
`m_bvh.m_bounds` into the caller's `min` and `max` buffers; the object is
const.  Modelled as returning the two corner coordinate lists. -/
def BVH.getBounds (w : World n) : World n × (List ℚ × List ℚ) :=
  (w, ((List.finRange n).map w.bvh.m_bvh.m_bounds.lo,
       (List.finRange n).map w.bvh.m_bvh.m_bounds.hi))

/-- Method `BVH::setScaleFactor` from `BVH.hpp`: assigns `m_scaleFactor`. -/
def BVH.setScaleFactor (s : ℚ) (w : World n) : World n :=
  { w with bvh := { w.bvh with m_scaleFactor := s } }

/-- Method `BVH::writeVtkFile` from `BVH.hpp`, a const debug export; the file
content itself is file I/O (`bvh_vtkio.hpp` is not in the sources), so the
model returns the dumped data - the root bounds and every inner node's two
child boxes - and leaves the object unchanged. -/
def BVH.writeVtkFile (w : World n) : World n × (AABB n × List (AABB n × AABB n)) :=
  (w, (w.bvh.m_bvh.m_bounds, w.bvh.m_bvh.m_inner_nodes.map fun nd => (nd.lbox, nd.rbox)))

/-!  Lemmas about boxes, sorting, trees and scans. -/

/-- Pointwise box inclusion: every point of `a` is a point of `b`. -/
def AABB.subset (a b : AABB n) : Prop :=
  ∀ d, b.lo d ≤ a.lo d ∧ a.hi d ≤ b.hi d

theorem AABB.containsB_iff {b : AABB n} {p : Fin n → ℚ} :
    b.containsB p = true ↔ ∀ d, b.lo d ≤ p d ∧ p d ≤ b.hi d := by
  simp [AABB.containsB, List.all_eq_true, List.mem_finRange]

theorem AABB.subset_union_left (a b : AABB n) : a.subset (a.union b) := by
  intro d
  exact ⟨min_le_left _ _, le_max_left _ _⟩

theorem AABB.subset_union_right (a b : AABB n) : b.subset (a.union b) := by
  intro d
  exact ⟨min_le_right _ _, le_max_right _ _⟩

theorem AABB.subset_trans {a b c : AABB n} (h1 : a.subset b) (h2 : b.subset c) :
    a.subset c := by
  intro d
  exact ⟨le_trans (h2 d).1 (h1 d).1, le_trans (h1 d).2 (h2 d).2⟩

theorem AABB.containsB_of_subset {a b : AABB n} {p : Fin n → ℚ}
    (hs : a.subset b) (hc : a.containsB p = true) : b.containsB p = true := by
  rw [AABB.containsB_iff] at hc ⊢
  intro d
  exact ⟨le_trans (hs d).1 (hc d).1, le_trans (hc d).2 (hs d).2⟩

theorem insertItem_perm (x : MItem n) (l : List (MItem n)) :
    (insertItem x l).Perm (x :: l) := by
  induction l with
  | nil => simp [insertItem]
  | cons y ys ih =>
    by_cases h : x.1 ≤ y.1
    · simp [insertItem, h]
    · simp only [insertItem, if_neg h]
      exact ((ih.cons y).trans (List.Perm.swap x y ys))

theorem sortItems_perm (l : List (MItem n)) : (sortItems l).Perm l := by
  induction l with
  | nil => simp [sortItems]
  | cons x xs ih =>
    exact (insertItem_perm x (sortItems xs)).trans (ih.cons x)

theorem leafList_ne_nil (t : RTree n) : t.leafList ≠ [] := by
  induction t with
  | leaf i b => simp [RTree.leafList]
  | node l r ihl ihr =>
    simp only [RTree.leafList]
    intro h
    exact ihl (List.append_eq_nil.mp h).1

theorem subset_tbox_of_mem_leafList {t : RTree n} {i : ℕ} {b : AABB n}
    (h : (i, b) ∈ t.leafList) : b.subset t.tbox := by
  induction t with
  | leaf j c =>
    simp only [RTree.leafList, List.mem_singleton] at h
    cases h
    intro d
    exact ⟨le_refl _, le_refl _⟩
  | node l r ihl ihr =>
    simp only [RTree.leafList, List.mem_append] at h
    rcases h with h | h
    · exact AABB.subset_trans (ihl h) (AABB.subset_union_left _ _)
    · exact AABB.subset_trans (ihr h) (AABB.subset_union_right _ _)

theorem numInner_add_one (t : RTree n) : t.numInner + 1 = t.leafList.length := by
  induction t with
  | leaf i b => simp [RTree.numInner, RTree.leafList]
  | node l r ihl ihr =>
    simp only [RTree.numInner, RTree.leafList, List.length_append]
    omega

theorem numNodes_eq (t : RTree n) : t.numNodes = t.numInner + t.leafList.length := by
  induction t with
  | leaf i b => simp [RTree.numNodes, RTree.numInner, RTree.leafList]
  | node l r ihl ihr =>
    simp only [RTree.numNodes, RTree.numInner, RTree.leafList, List.length_append]
    omega

theorem exclusiveScan_length (l : List ℕ) : (exclusiveScan l).length = l.length := by
  induction l with
  | nil => rfl
  | cons c cs ih => simp [exclusiveScan, ih]

theorem exclusiveScan_getElem (l : List ℕ) (i : ℕ) (hi : i < l.length) :
    (exclusiveScan l)[i]? = some ((l.take i).sum) := by
  induction l generalizing i with
  | nil => simp at hi
  | cons c cs ih =>
    cases i with
    | zero => simp [exclusiveScan]
    | succ i =>
      simp only [List.length_cons, Nat.succ_lt_succ_iff] at hi
      simp [exclusiveScan, List.getElem?_map, ih i hi, List.take_succ_cons,
        Nat.add_comm]

theorem leafList_combTree (xs : List (MItem n)) (h : xs ≠ []) :
    (combTree xs).leafList = xs.map fun e => (e.2.1, e.2.2) := by
  induction xs with
  | nil => exact absurd rfl h
  | cons x ys ih =>
    cases ys with
    | nil => simp [combTree, RTree.leafList]
    | cons y rest =>
      simp only [combTree, RTree.leafList, List.map_cons]
      rw [ih (by simp)]
      simp

theorem buildTrie_zero_cons2 (x y : MItem n) (rest : List (MItem n)) :
    buildTrie 0 (x :: y :: rest) = combTree (x :: y :: rest) := rfl

theorem buildTrie_succ_cons2 (b : ℕ) (x y : MItem n) (rest : List (MItem n)) :
    buildTrie (b + 1) (x :: y :: rest) =
      (fun s => if s.1.isEmpty || s.2.isEmpty then buildTrie b (x :: y :: rest)
        else RTree.node (buildTrie b s.1) (buildTrie b s.2))
      ((x :: y :: rest).span fun e => !e.1.testBit b) := rfl

theorem leafList_buildTrie (bits : ℕ) (xs : List (MItem n)) (h : xs ≠ []) :
    (buildTrie bits xs).leafList = xs.map fun e => (e.2.1, e.2.2) := by
  induction bits generalizing xs with
  | zero =>
    match xs, h with
    | [x], _ => simp [buildTrie, RTree.leafList]
    | x :: y :: rest, _ =>
      show (combTree (x :: y :: rest)).leafList = _
      exact leafList_combTree _ (by simp)
  | succ b ih =>
    match xs, h with
    | [x], _ => simp [buildTrie, RTree.leafList]
    | x :: y :: rest, _ =>
      rw [buildTrie_succ_cons2]
      set xs0 := x :: y :: rest with hxs0
      simp only []
      by_cases hcase : ((xs0.span fun e => !e.1.testBit b).1.isEmpty ||
          (xs0.span fun e => !e.1.testBit b).2.isEmpty) = true
      · rw [if_pos hcase]
        exact ih xs0 (by simp [hxs0])
      · rw [if_neg hcase]
        simp only [Bool.or_eq_true, List.isEmpty_iff, not_or] at hcase
        simp only [RTree.leafList]
        rw [ih _ hcase.1, ih _ hcase.2, ← List.map_append]
        rw [List.span_eq_take_drop, List.takeWhile_append_dropWhile]

theorem buildTrie_node (bits : ℕ) (xs : List (MItem n)) (h : 2 ≤ xs.length) :
    ∃ l r, buildTrie bits xs = .node l r := by
  induction bits generalizing xs with
  | zero =>
    match xs, h with
    | x :: y :: rest, _ =>
      exact ⟨_, _, rfl⟩
  | succ b ih =>
    match xs, h with
    | x :: y :: rest, _ =>
      rw [buildTrie_succ_cons2]
      set xs0 := x :: y :: rest with hxs0
      simp only []
      by_cases hcase : ((xs0.span fun e => !e.1.testBit b).1.isEmpty ||
          (xs0.span fun e => !e.1.testBit b).2.isEmpty) = true
      · rw [if_pos hcase]
        exact ih xs0 (by simp [hxs0])
      · rw [if_neg hcase]
        exact ⟨_, _, rfl⟩

theorem filter_leafList_eq_nil {t : RTree n} {p : Fin n → ℚ}
    (h : t.tbox.containsB p = false) :
    t.leafList.filter (fun e => e.2.containsB p) = [] := by
  rw [List.filter_eq_nil_iff]
  rintro ⟨i, b⟩ hmem hc
  have hsub := subset_tbox_of_mem_leafList hmem
  have := AABB.containsB_of_subset hsub (by simpa using hc)
  rw [h] at this
  exact Bool.false_ne_true this

theorem search_eq_filter {p : Fin n → ℚ} (t : RTree n)
    (h : t.tbox.containsB p = true) :
    t.search p = (t.leafList.filter fun e => e.2.containsB p).map Prod.fst := by
  induction t with
  | leaf i b =>
    simp only [RTree.tbox] at h
    simp [RTree.search, RTree.leafList, h]
  | node l r ihl ihr =>
    simp only [RTree.search, RTree.leafList, List.filter_append, List.map_append]
    congr 1
    · by_cases hc : l.tbox.containsB p = true
      · rw [if_pos hc, ihl hc]
      · rw [if_neg (by simp [hc]),
          filter_leafList_eq_nil (by simpa using Bool.not_eq_true _ ▸ hc)]
        rfl
    · by_cases hc : r.tbox.containsB p = true
      · rw [if_pos hc, ihr hc]
      · rw [if_neg (by simp [hc]),
          filter_leafList_eq_nil (by simpa using Bool.not_eq_true _ ▸ hc)]
        rfl

theorem search_node_eq {p : Fin n → ℚ} (l r : RTree n) :
    (RTree.node l r).search p =
      ((RTree.node l r).leafList.filter fun e => e.2.containsB p).map Prod.fst := by
  simp only [RTree.search, RTree.leafList, List.filter_append, List.map_append]
  congr 1
  · by_cases hc : l.tbox.containsB p = true
    · rw [if_pos hc, search_eq_filter l hc]
    · rw [if_neg (by simp [hc]),
        filter_leafList_eq_nil (by simpa using Bool.not_eq_true _ ▸ hc)]
      rfl
  · by_cases hc : r.tbox.containsB p = true
    · rw [if_pos hc, search_eq_filter r hc]
    · rw [if_neg (by simp [hc]),
        filter_leafList_eq_nil (by simpa using Bool.not_eq_true _ ▸ hc)]
      rfl

theorem mem_search_node {p : Fin n → ℚ} {l r : RTree n} {j : ℕ} :
    j ∈ (RTree.node l r).search p ↔
      ∃ b, (j, b) ∈ (RTree.node l r).leafList ∧ b.containsB p = true := by
  rw [search_node_eq]
  constructor
  · intro hj
    rcases List.mem_map.mp hj with ⟨⟨a, b⟩, he, rfl⟩
    rcases List.mem_filter.mp he with ⟨hmem, hc⟩
    exact ⟨b, hmem, by simpa using hc⟩
  · rintro ⟨b, hmem, hc⟩
    exact List.mem_map.mpr ⟨(j, b), List.mem_filter.mpr ⟨hmem, by simpa using hc⟩, rfl⟩

theorem numNodes_pos (t : RTree n) : 0 < t.numNodes := by
  cases t with
  | leaf i b => simp [RTree.numNodes]
  | node l r => simp [RTree.numNodes]

theorem emitAux_inner_length (t : RTree n) (ib lb : ℕ) :
    (emitAux t ib lb).1.length = t.numInner := by
  induction t generalizing ib lb with
  | leaf i b => simp [emitAux, RTree.numInner]
  | node l r ihl ihr =>
    simp only [emitAux, RTree.numInner, List.length_cons, List.length_append]
    rw [ihl, ihr]

theorem emitAux_leafs_length (t : RTree n) (ib lb : ℕ) :
    (emitAux t ib lb).2.1.length = t.leafList.length := by
  induction t generalizing ib lb with
  | leaf i b => simp [emitAux, RTree.leafList]
  | node l r ihl ihr =>
    simp only [emitAux, RTree.leafList, List.length_append]
    rw [ihl, ihr]

theorem getElem?_append_off {α : Type} (l1 l2 : List α) (k : ℕ) :
    (l1 ++ l2)[l1.length + k]? = l2[k]? := by
  rw [List.getElem?_append, if_neg (by omega)]
  congr 1
  omega

/-- The list `seg` occurs as a contiguous segment of `xs` starting at index
`base`. -/
def SegAt {α : Type} (xs : List α) (base : ℕ) (seg : List α) : Prop :=
  ∀ k, k < seg.length → xs[base + k]? = seg[k]?

theorem SegAt.of_append {α : Type} {xs : List α} {base : ℕ} {s1 s2 : List α}
    (h : SegAt xs base (s1 ++ s2)) :
    SegAt xs base s1 ∧ SegAt xs (base + s1.length) s2 := by
  constructor
  · intro k hk
    have hx := h k (by simp only [List.length_append]; omega)
    rw [hx, List.getElem?_append, if_pos hk]
  · intro k hk
    have hx := h (s1.length + k) (by simp only [List.length_append]; omega)
    rw [show base + (s1.length + k) = base + s1.length + k by omega] at hx
    rw [hx, getElem?_append_off]

theorem SegAt.of_cons {α : Type} {xs : List α} {base : ℕ} {a : α} {s : List α}
    (h : SegAt xs base (a :: s)) :
    xs[base]? = some a ∧ SegAt xs (base + 1) s := by
  constructor
  · have hx := h 0 (by simp)
    simpa using hx
  · intro k hk
    have hx := h (k + 1) (by simp only [List.length_cons]; omega)
    rw [show base + (k + 1) = base + 1 + k by omega] at hx
    simpa using hx

/-- Correspondence between a child reference into the flattened arrays of a
`BVHData` and the subtree of the radix tree it stands for: a leaf reference
addresses a leaf slot holding the leaf's original index, and an inner
reference addresses an inner record storing the two children's subtree boxes
and references standing for the two subtrees. -/
inductive RefOk (bvh : BVHData n) : ChildRef → RTree n → Prop where
  | leaf {j i : ℕ} {b : AABB n} (h : bvh.m_leaf_nodes[j]? = some i) :
      RefOk bvh (.leafAt j) (.leaf i b)
  | node {k : ℕ} {nd : InnerNode n} {l r : RTree n}
      (hk : bvh.m_inner_nodes[k]? = some nd)
      (hl : nd.lbox = l.tbox) (hr : nd.rbox = r.tbox)
      (hcl : RefOk bvh nd.lchild l) (hcr : RefOk bvh nd.rchild r) :
      RefOk bvh (.innerAt k) (.node l r)

theorem emitAux_refOk (bvh : BVHData n) (t : RTree n) (ib lb : ℕ)
    (hinner : SegAt bvh.m_inner_nodes ib (emitAux t ib lb).1)
    (hleafs : SegAt bvh.m_leaf_nodes lb (emitAux t ib lb).2.1) :
    RefOk bvh (emitAux t ib lb).2.2 t := by
  induction t generalizing ib lb with
  | leaf i b =>
    simp only [emitAux] at hleafs ⊢
    exact RefOk.leaf hleafs.of_cons.1
  | node l r ihl ihr =>
    simp only [emitAux] at hinner hleafs ⊢
    obtain ⟨hhead, hrest⟩ := hinner.of_cons
    obtain ⟨hin_l, hin_r⟩ := hrest.of_append
    obtain ⟨hlf_l, hlf_r⟩ := hleafs.of_append
    exact RefOk.node hhead rfl rfl (ihl _ _ hin_l hlf_l) (ihr _ _ hin_r hlf_r)

theorem traverseLoop_eq (bvh : BVHData n) (p : Fin n → ℚ) :
    ∀ (fuel : ℕ) (ts : List (RTree n)) (refs : List ChildRef) (acc : List ℕ),
      List.Forall₂ (RefOk bvh) refs ts →
      (ts.map RTree.numNodes).sum ≤ fuel →
      bvhTraverseLoop bvh p fuel refs acc = acc ++ (ts.map (RTree.search p)).flatten := by
  intro fuel
  induction fuel with
  | zero =>
    intro ts refs acc hok hfuel
    cases hok with
    | nil => simp [bvhTraverseLoop]
    | @cons ref t refs2 ts2 h1 h2 =>
      exfalso
      have := numNodes_pos t
      simp only [List.map_cons, List.sum_cons, Nat.le_zero] at hfuel
      omega
  | succ fuel ih =>
    intro ts refs acc hok hfuel
    cases hok with
    | nil => simp [bvhTraverseLoop]
    | @cons ref t refs2 ts2 h1 h2 =>
      cases h1 with
      | @leaf j i b hj =>
        simp only [bvhTraverseLoop]
        rw [ih ts2 refs2 _ h2 (by
          simp only [List.map_cons, List.sum_cons, RTree.numNodes] at hfuel
          omega)]
        simp only [List.getD_eq_getElem?_getD, hj, Option.getD_some, List.map_cons,
          List.flatten_cons, RTree.search]
        simp
      | @node k nd l r hk hl hr hcl hcr =>
        simp only [bvhTraverseLoop, hk]
        have hfl : List.Forall₂ (RefOk bvh)
            (if nd.lbox.containsB p then [nd.lchild] else [])
            (if nd.lbox.containsB p then [l] else []) := by
          by_cases hc : nd.lbox.containsB p = true
          · simp only [if_pos hc]
            exact List.Forall₂.cons hcl List.Forall₂.nil
          · simp only [if_neg hc]
            exact List.Forall₂.nil
        have hfr : List.Forall₂ (RefOk bvh)
            (if nd.rbox.containsB p then [nd.rchild] else [])
            (if nd.rbox.containsB p then [r] else []) := by
          by_cases hc : nd.rbox.containsB p = true
          · simp only [if_pos hc]
            exact List.Forall₂.cons hcr List.Forall₂.nil
          · simp only [if_neg hc]
            exact List.Forall₂.nil
        have hok2 : List.Forall₂ (RefOk bvh)
            ((if nd.lbox.containsB p then [nd.lchild] else []) ++
             (if nd.rbox.containsB p then [nd.rchild] else []) ++ refs2)
            ((if nd.lbox.containsB p then [l] else []) ++
             (if nd.rbox.containsB p then [r] else []) ++ ts2) :=
          List.rel_append (List.rel_append hfl hfr) h2
        rw [ih _ _ acc hok2 (by
          simp only [List.map_cons, List.sum_cons, RTree.numNodes] at hfuel
          simp only [List.map_append, List.sum_append]
          have hcl1 : ((if nd.lbox.containsB p then [l] else []).map
              RTree.numNodes).sum ≤ l.numNodes := by
            by_cases hc : nd.lbox.containsB p = true <;> simp [hc]
          have hcr1 : ((if nd.rbox.containsB p then [r] else []).map
              RTree.numNodes).sum ≤ r.numNodes := by
            by_cases hc : nd.rbox.containsB p = true <;> simp [hc]
          omega)]
        simp only [List.map_append, List.flatten_append, hl, hr]
        have hflat1 : ((if l.tbox.containsB p then [l] else []).map
            (RTree.search p)).flatten = if l.tbox.containsB p then l.search p else [] := by
          by_cases hc : l.tbox.containsB p = true <;> simp [hc]
        have hflat2 : ((if r.tbox.containsB p then [r] else []).map
            (RTree.search p)).flatten = if r.tbox.containsB p then r.search p else [] := by
          by_cases hc : r.tbox.containsB p = true <;> simp [hc]
        rw [hflat1, hflat2]
        simp only [List.map_cons, List.flatten_cons, RTree.search]

theorem rootRef_emit (t : RTree n) (gb : AABB n) :
    (emit_bvh t gb).rootRef = (emitAux t 0 0).2.2 := by
  cases t with
  | leaf i b => rfl
  | node l r => rfl

theorem bvh_traverse_emit (t : RTree n) (gb : AABB n) (p : Fin n → ℚ) :
    bvh_traverse (emit_bvh t gb) p = t.search p := by
  have hroot : RefOk (emit_bvh t gb) (emit_bvh t gb).rootRef t := by
    rw [rootRef_emit]
    apply emitAux_refOk
    · intro k hk
      simp only [emit_bvh, Nat.zero_add]
    · intro k hk
      simp only [emit_bvh, Nat.zero_add]
  have hlen : (emit_bvh t gb).m_inner_nodes.length +
      (emit_bvh t gb).m_leaf_nodes.length = t.numNodes := by
    simp only [emit_bvh, emitAux_inner_length, emitAux_leafs_length]
    rw [numNodes_eq]
  rw [bvh_traverse, hlen,
    traverseLoop_eq (emit_bvh t gb) p t.numNodes [t] [(emit_bvh t gb).rootRef] []
      (List.Forall₂.cons hroot List.Forall₂.nil) (by simp)]
  simp

theorem AABB.ext2 {a b : AABB n} (hlo : ∀ d, a.lo d = b.lo d)
    (hhi : ∀ d, a.hi d = b.hi d) : a = b := by
  cases a
  cases b
  simp only [AABB.mk.injEq]
  exact ⟨funext hlo, funext hhi⟩

theorem mem_traverse_sorted (keys : ℕ → ℕ) (boxes : ℕ → AABB n)
    (numBoxes W : ℕ) (gb : AABB n) (h2 : 2 ≤ numBoxes) (p : Fin n → ℚ) (j : ℕ) :
    j ∈ bvh_traverse (emit_bvh (buildTrie W (sortItems
        ((List.range numBoxes).map fun i => (keys i, i, boxes i)))) gb) p ↔
      (j < numBoxes ∧ (boxes j).containsB p = true) := by
  set items := (List.range numBoxes).map fun i => (keys i, i, boxes i) with hitems
  have hlen : (sortItems items).length = numBoxes := by
    rw [(sortItems_perm items).length_eq, hitems, List.length_map, List.length_range]
  obtain ⟨l, r, htree⟩ := buildTrie_node W (sortItems items) (by omega)
  rw [bvh_traverse_emit, htree, mem_search_node]
  have hleaves : (RTree.node l r).leafList =
      (sortItems items).map fun e => (e.2.1, e.2.2) := by
    rw [← htree]
    exact leafList_buildTrie W (sortItems items)
      (by intro hnil; rw [hnil] at hlen; simp at hlen; omega)
  rw [hleaves]
  constructor
  · rintro ⟨b, hmem, hc⟩
    rcases List.mem_map.mp hmem with ⟨e, he, heq⟩
    have he2 : e ∈ items := (sortItems_perm items).mem_iff.mp he
    rw [hitems] at he2
    rcases List.mem_map.mp he2 with ⟨i, hi, rfl⟩
    rw [List.mem_range] at hi
    simp only [Prod.mk.injEq] at heq
    obtain ⟨rfl, rfl⟩ := heq
    exact ⟨hi, hc⟩
  · rintro ⟨hj, hc⟩
    refine ⟨boxes j, ?_, hc⟩
    apply List.mem_map.mpr
    refine ⟨(keys j, j, boxes j), ?_, rfl⟩
    apply (sortItems_perm items).mem_iff.mpr
    rw [hitems]
    exact List.mem_map.mpr ⟨j, List.mem_range.mpr hj, rfl⟩

theorem mem_traverse_radix (flat : List ℚ) (numBoxes : ℕ) (s : ℚ)
    (h2 : 2 ≤ numBoxes) (p : Fin n → ℚ) (j : ℕ) :
    j ∈ bvh_traverse (emit_bvh (build_radix_tree (n := n) flat numBoxes s).2
      (build_radix_tree (n := n) flat numBoxes s).1) p ↔
    (j < numBoxes ∧ ((boxAt flat j).expand s).containsB p = true) := by
  exact mem_traverse_sorted
    (fun i => mortonCode (unionList ((List.range numBoxes).map fun k => boxAt flat k))
      (boxAt flat i) * 2 ^ numBoxes + i)
    (fun i => (boxAt flat i).expand s) numBoxes (mortonBits * n + numBoxes)
    (build_radix_tree (n := n) flat numBoxes s).1 h2 p j

theorem mem_traverse_buildCore (flat : List ℚ) (numItems : ℕ) (s : ℚ)
    (h2 : 2 ≤ numItems) (p : Fin n → ℚ) (j : ℕ) :
    j ∈ bvh_traverse (BVH.buildCore (n := n) flat numItems s) p ↔
      (j < numItems ∧ ((boxAt flat j).expand s).containsB p = true) := by
  have hne : ¬ (numItems = 1) := by omega
  have hcore : BVH.buildCore (n := n) flat numItems s =
      emit_bvh (build_radix_tree (n := n) flat numItems s).2
        (build_radix_tree (n := n) flat numItems s).1 := by
    simp [BVH.buildCore, hne]
  rw [hcore]
  exact mem_traverse_radix flat numItems s h2 p j

/-- The padded buffer built by `BVH::build` for a single-item input. -/
def paddedFlat (n : ℕ) (flat : List ℚ) : List ℚ :=
  (List.range (2 * (2 * n))).map fun i => if i < 2 * n then flat.getD i 0 else 0

theorem paddedFlat_getD (flat : List ℚ) (k : ℕ) :
    (paddedFlat n flat).getD k 0 = if k < 2 * n then flat.getD k 0 else 0 := by
  rw [paddedFlat, List.getD_eq_getElem?_getD, List.getElem?_map]
  by_cases hk : k < 2 * (2 * n)
  · rw [List.getElem?_range hk]
    rfl
  · rw [List.getElem?_eq_none (by simpa using hk)]
    have : ¬ (k < 2 * n) := by omega
    simp [this]

theorem boxAt_paddedFlat_zero (flat : List ℚ) :
    boxAt (n := n) (paddedFlat n flat) 0 = boxAt flat 0 := by
  apply AABB.ext2
  · intro d
    show (paddedFlat n flat).getD (2 * n * 0 + d.val) 0 = flat.getD (2 * n * 0 + d.val) 0
    rw [paddedFlat_getD, if_pos (by omega)]
  · intro d
    show (paddedFlat n flat).getD (2 * n * 0 + n + d.val) 0
      = flat.getD (2 * n * 0 + n + d.val) 0
    rw [paddedFlat_getD, if_pos (by omega)]

theorem boxAt_paddedFlat_one (flat : List ℚ) :
    boxAt (n := n) (paddedFlat n flat) 1 = zeroAABB n := by
  apply AABB.ext2
  · intro d
    show (paddedFlat n flat).getD (2 * n * 1 + d.val) 0 = 0
    rw [paddedFlat_getD, if_neg (by omega)]
  · intro d
    show (paddedFlat n flat).getD (2 * n * 1 + n + d.val) 0 = 0
    rw [paddedFlat_getD, if_neg (by omega)]

theorem mem_traverse_buildCore_one (flat : List ℚ) (s : ℚ)
    (p : Fin n → ℚ) (j : ℕ) :
    j ∈ bvh_traverse (BVH.buildCore (n := n) flat 1 s) p ↔
      ((j = 0 ∧ ((boxAt flat 0).expand s).containsB p = true) ∨
       (j = 1 ∧ ((zeroAABB n).expand s).containsB p = true)) := by
  have hcore : BVH.buildCore (n := n) flat 1 s =
      emit_bvh (build_radix_tree (n := n) (paddedFlat n flat) 2 s).2
        (build_radix_tree (n := n) (paddedFlat n flat) 2 s).1 := by
    simp [BVH.buildCore, paddedFlat]
  rw [hcore, mem_traverse_radix (paddedFlat n flat) 2 s (le_refl 2) p j]
  constructor
  · rintro ⟨hj, hc⟩
    interval_cases j
    · left
      rw [boxAt_paddedFlat_zero] at hc
      exact ⟨rfl, hc⟩
    · right
      rw [boxAt_paddedFlat_one] at hc
      exact ⟨rfl, hc⟩
  · rintro (⟨rfl, hc⟩ | ⟨rfl, hc⟩)
    · exact ⟨by omega, by rw [boxAt_paddedFlat_zero]; exact hc⟩
    · exact ⟨by omega, by rw [boxAt_paddedFlat_one]; exact hc⟩

/-- The candidates of query `i` in the CSR output: the slice of the
candidates array starting at `offsets[i]` of length `counts[i]`. -/
def csrSlice (offsets counts cands : List ℕ) (i : ℕ) : List ℕ :=
  (cands.drop (offsets.getD i 0)).take (counts.getD i 0)

/-- The candidates of query `i` in a `(offsets, counts, candidates)` result
triple. -/
def csrCandidates (res : List ℕ × List ℕ × List ℕ) (i : ℕ) : List ℕ :=
  csrSlice res.1 res.2.1 res.2.2 i

theorem csrSlice_flatten (ls : List (List ℕ)) (i : ℕ) (hi : i < ls.length) :
    csrSlice (exclusiveScan (ls.map List.length)) (ls.map List.length)
      ls.flatten i = ls.getD i [] := by
  induction ls generalizing i with
  | nil => simp at hi
  | cons hd tl ih =>
    cases i with
    | zero =>
      simp only [csrSlice, List.map_cons, exclusiveScan, List.flatten_cons,
        List.getD_cons_zero, List.drop_zero]
      exact List.take_left hd tl.flatten
    | succ i =>
      have hi2 : i < tl.length := by simpa using hi
      have hlen : i < (exclusiveScan (tl.map List.length)).length := by
        rw [exclusiveScan_length, List.length_map]
        exact hi2
      simp only [csrSlice, List.map_cons, exclusiveScan, List.flatten_cons,
        List.getD_cons_succ]
      have hoff : ((exclusiveScan (tl.map List.length)).map (hd.length + ·)).getD i 0 =
          hd.length + (exclusiveScan (tl.map List.length)).getD i 0 := by
        rw [List.getD_eq_getElem?_getD, List.getElem?_map, List.getElem?_eq_getElem hlen,
          List.getD_eq_getElem?_getD, List.getElem?_eq_getElem hlen]
        rfl
      rw [hoff, ← List.drop_drop, List.drop_left]
      exact ih i hi2

theorem findCore_eq (bvh : BVHData n) (pts : List (Fin n → ℚ)) :
    findCore bvh pts =
      (exclusiveScan ((pts.map (bvh_traverse bvh)).map List.length),
       (pts.map (bvh_traverse bvh)).map List.length,
       (pts.map (bvh_traverse bvh)).flatten) := by
  simp only [findCore, bvh_get_counts, List.map_map]
  rfl

theorem csrCandidates_findCore (bvh : BVHData n) (pts : List (Fin n → ℚ))
    (i : ℕ) (hi : i < pts.length) :
    csrCandidates (findCore bvh pts) i =
      bvh_traverse bvh (pts.getD i fun _ => 0) := by
  rw [findCore_eq]
  have hslice := csrSlice_flatten (pts.map (bvh_traverse bvh)) i
    (by rw [List.length_map]; exact hi)
  have hmap : (pts.map (bvh_traverse bvh)).getD i [] =
      bvh_traverse bvh (pts.getD i fun _ => 0) := by
    rw [List.getD_eq_getElem?_getD, List.getElem?_map, List.getElem?_eq_getElem hi,
      List.getD_eq_getElem?_getD, List.getElem?_eq_getElem hi]
    rfl
  rw [csrCandidates]
  exact hslice.trans hmap

theorem findCore_counts_length (bvh : BVHData n) (pts : List (Fin n → ℚ)) :
    (findCore bvh pts).2.1.length = pts.length := by
  rw [findCore_eq]
  simp

theorem findCore_offsets_length (bvh : BVHData n) (pts : List (Fin n → ℚ)) :
    (findCore bvh pts).1.length = pts.length := by
  rw [findCore_eq]
  simp [exclusiveScan_length]

theorem findCore_cands_length (bvh : BVHData n) (pts : List (Fin n → ℚ)) :
    (findCore bvh pts).2.2.length = (findCore bvh pts).2.1.sum := by
  rw [findCore_eq]
  simp [List.length_flatten]

theorem findCore_offsets_getElem (bvh : BVHData n) (pts : List (Fin n → ℚ))
    (i : ℕ) (hi : i < pts.length) :
    (findCore bvh pts).1[i]? = some (((findCore bvh pts).2.1.take i).sum) := by
  rw [findCore_eq]
  exact exclusiveScan_getElem _ i (by simpa using hi)

theorem emit_lengths_sorted (keys : ℕ → ℕ) (boxes : ℕ → AABB n)
    (numBoxes W : ℕ) (gb : AABB n) (h : 0 < numBoxes) :
    (emit_bvh (buildTrie W (sortItems ((List.range numBoxes).map fun i =>
        (keys i, i, boxes i)))) gb).m_inner_nodes.length = numBoxes - 1 ∧
    (emit_bvh (buildTrie W (sortItems ((List.range numBoxes).map fun i =>
        (keys i, i, boxes i)))) gb).m_leaf_nodes.length = numBoxes := by
  set items := (List.range numBoxes).map fun i => (keys i, i, boxes i) with hitems
  have hlen : (sortItems items).length = numBoxes := by
    rw [(sortItems_perm items).length_eq, hitems, List.length_map, List.length_range]
  have hne : sortItems items ≠ [] := by
    intro hnil
    rw [hnil] at hlen
    simp at hlen
    omega
  have hleaf : (buildTrie W (sortItems items)).leafList.length = numBoxes := by
    rw [leafList_buildTrie W (sortItems items) hne, List.length_map, hlen]
  constructor
  · show (emitAux (buildTrie W (sortItems items)) 0 0).1.length = numBoxes - 1
    rw [emitAux_inner_length]
    have h2 := numInner_add_one (buildTrie W (sortItems items))
    omega
  · show (emitAux (buildTrie W (sortItems items)) 0 0).2.1.length = numBoxes
    rw [emitAux_leafs_length, hleaf]

theorem buildCore_lengths (flat : List ℚ) (numItems : ℕ) (s : ℚ)
    (h : 1 < numItems) :
    (BVH.buildCore (n := n) flat numItems s).m_inner_nodes.length = numItems - 1 ∧
    (BVH.buildCore (n := n) flat numItems s).m_leaf_nodes.length = numItems := by
  have hne : ¬ (numItems = 1) := by omega
  have hcore : BVH.buildCore (n := n) flat numItems s =
      emit_bvh (build_radix_tree (n := n) flat numItems s).2
        (build_radix_tree (n := n) flat numItems s).1 := by
    simp [BVH.buildCore, hne]
  rw [hcore]
  exact emit_lengths_sorted
    (fun i => mortonCode (unionList ((List.range numItems).map fun k => boxAt flat k))
      (boxAt flat i) * 2 ^ numItems + i)
    (fun i => (boxAt flat i).expand s) numItems (mortonBits * n + numItems)
    (build_radix_tree (n := n) flat numItems s).1 (by omega)

theorem buildCore_bounds (flat : List ℚ) (numItems : ℕ) (s : ℚ)
    (hne : ¬ (numItems = 1)) :
    (BVH.buildCore (n := n) flat numItems s).m_bounds =
      unionList ((List.range numItems).map fun i => boxAt flat i) := by
  simp [BVH.buildCore, hne]
  rfl

theorem build_preserves_input (ea : ℕ) (w : World n) :
    (BVH.build ea w).1.bvh.m_scaleFactor = w.bvh.m_scaleFactor ∧
    (BVH.build ea w).1.bvh.m_numItems = w.bvh.m_numItems ∧
    (BVH.build ea w).1.bvh.m_boxes = w.bvh.m_boxes ∧
    (BVH.build ea w).1.bvh.m_bvh =
      BVH.buildCore w.bvh.m_boxes w.bvh.m_numItems w.bvh.m_scaleFactor := by
  by_cases h : w.bvh.m_numItems = 1 <;>
    simp [BVH.build, axomAllocate, h]

theorem find_eq_findCore (ea : ℕ) (w : World n) (pts : List (Fin n → ℚ)) :
    (BVH.find ea w pts).2 = findCore w.bvh.m_bvh pts := rfl

/-!  The claim theorems. -/

/-- Claim C1, corrected by restricting to builds over at least two boxes (for
a single-item build the synthesized zero box can additionally report
candidate index 1, refuting the claim as stated - see the counterexample):
for a BVH built over `numItems >= 2` boxes, the candidate set that `find()`
returns for query point `i` is exactly the set of original input box indices
whose scale-factor-expanded box contains that point - no false negatives and
no false positives beyond the expansion. -/
theorem C1_find_exact_candidates (ea : ℕ) (w : World n) (pts : List (Fin n → ℚ))
    (i j : ℕ) (h2 : 2 ≤ w.bvh.m_numItems) (hi : i < pts.length) :
    j ∈ csrCandidates (BVH.find ea (BVH.build ea w).1 pts).2 i ↔
      (j < w.bvh.m_numItems ∧
        ((boxAt w.bvh.m_boxes j).expand w.bvh.m_scaleFactor).containsB
          (pts.getD i fun _ => 0) = true) := by
  obtain ⟨hs, hn, hb, hm⟩ := build_preserves_input ea w
  rw [find_eq_findCore, hm, csrCandidates_findCore _ _ i hi,
    mem_traverse_buildCore _ _ _ h2]

/-- Claim C2, corrected: `build()` returns `BVH_BUILD_OK` unconditionally -
the zero-item precondition and allocation failure are not reflected in the
return status (the only return statement of the method returns
`BVH_BUILD_OK`). -/
theorem C2_build_always_ok (ea : ℕ) (w : World n) :
    (BVH.build ea w).2 = BVH_BUILD_OK := rfl

/-- Claim C3, corrected: for `numItems == 1` the synthesized second box is
the all-zero box (the padding loop writes `0.0`, not a copy of the input
box), and results beyond the true item count are not discarded; `find()`
returns index 0 exactly when the query point is in the expanded input box,
and additionally returns index 1 exactly when the query point is in the
expanded zero box.  It never crashes and never returns an index outside
`{0, 1}`. -/
theorem C3_single_item_candidates (ea : ℕ) (w : World n)
    (pts : List (Fin n → ℚ)) (i j : ℕ) (h1 : w.bvh.m_numItems = 1)
    (hi : i < pts.length) :
    j ∈ csrCandidates (BVH.find ea (BVH.build ea w).1 pts).2 i ↔
      ((j = 0 ∧ ((boxAt w.bvh.m_boxes 0).expand w.bvh.m_scaleFactor).containsB
          (pts.getD i fun _ => 0) = true) ∨
       (j = 1 ∧ ((zeroAABB n).expand w.bvh.m_scaleFactor).containsB
          (pts.getD i fun _ => 0) = true)) := by
  obtain ⟨hs, hn, hb, hm⟩ := build_preserves_input ea w
  rw [find_eq_findCore, hm, h1, csrCandidates_findCore _ _ i hi,
    mem_traverse_buildCore_one]

/-- Claim C4, confirmed: after `find()` on `numPts` query points the CSR
law holds - the candidates array length is the sum of the counts, offsets
and counts have length `numPts`, and `offsets[i]` is the exclusive prefix
sum of the counts below `i`. -/
theorem C4_csr_consistency (ea : ℕ) (w : World n) (pts : List (Fin n → ℚ))
    (i : ℕ) (hi : i < pts.length) :
    (BVH.find ea w pts).2.2.2.length = (BVH.find ea w pts).2.2.1.sum ∧
    (BVH.find ea w pts).2.1.length = pts.length ∧
    (BVH.find ea w pts).2.2.1.length = pts.length ∧
    (BVH.find ea w pts).2.1[i]? = some (((BVH.find ea w pts).2.2.1.take i).sum) := by
  rw [find_eq_findCore]
  exact ⟨findCore_cands_length _ _, findCore_offsets_length _ _,
    findCore_counts_length _ _, findCore_offsets_getElem _ _ i hi⟩

/-- Claim C5, confirmed: build and query are deterministic functions of the
stored input in this embedding (the parallel loops are modelled by their
sequential semantics), and rebuilding with unchanged input is idempotent -
the tree after two consecutive `build()` calls equals the tree after one,
and `find()` on either yields identical results. -/
theorem C5_deterministic_rebuild (ea : ℕ) (w : World n)
    (pts : List (Fin n → ℚ)) :
    (BVH.build ea (BVH.build ea w).1).1.bvh.m_bvh = (BVH.build ea w).1.bvh.m_bvh ∧
    (BVH.find ea (BVH.build ea (BVH.build ea w).1).1 pts).2 =
      (BVH.find ea (BVH.build ea w).1 pts).2 := by
  obtain ⟨hs1, hn1, hb1, hm1⟩ := build_preserves_input ea w
  obtain ⟨hs2, hn2, hb2, hm2⟩ := build_preserves_input ea (BVH.build ea w).1
  have hkey : (BVH.build ea (BVH.build ea w).1).1.bvh.m_bvh =
      (BVH.build ea w).1.bvh.m_bvh := by
    rw [hm2, hs1, hn1, hb1, hm1]
  refine ⟨hkey, ?_⟩
  rw [find_eq_findCore, find_eq_findCore, hkey]

/-- Claim C6, confirmed: after `build()` over `numBoxes > 1` input boxes the
flattened BVH has exactly `numBoxes` leaf slots and `numBoxes - 1` inner
records, and `find()`, `getBounds()` and `writeVtkFile()` leave the built
tree unchanged. -/
theorem C6_tree_shape (ea : ℕ) (w : World n) (pts : List (Fin n → ℚ))
    (h : 1 < w.bvh.m_numItems) :
    (BVH.build ea w).1.bvh.m_bvh.m_inner_nodes.length = w.bvh.m_numItems - 1 ∧
    (BVH.build ea w).1.bvh.m_bvh.m_leaf_nodes.length = w.bvh.m_numItems ∧
    (BVH.find ea (BVH.build ea w).1 pts).1.bvh.m_bvh = (BVH.build ea w).1.bvh.m_bvh ∧
    (BVH.getBounds (BVH.build ea w).1).1.bvh.m_bvh = (BVH.build ea w).1.bvh.m_bvh ∧
    (BVH.writeVtkFile (BVH.build ea w).1).1.bvh.m_bvh = (BVH.build ea w).1.bvh.m_bvh := by
  obtain ⟨hs, hn, hb, hm⟩ := build_preserves_input ea w
  obtain ⟨hl1, hl2⟩ := buildCore_lengths w.bvh.m_boxes w.bvh.m_numItems
    w.bvh.m_scaleFactor h
  exact ⟨by rw [hm]; exact hl1, by rw [hm]; exact hl2, rfl, rfl, rfl⟩

/-- Claim C7, corrected by restricting to builds over at least two boxes:
after a successful `build()` over `numItems >= 2` boxes, `getBounds` returns
the corners of the union of all input boxes before scale expansion.  For
`numItems == 1` the bounds additionally absorb the synthesized zero box (see
the counterexample), so the claim as stated fails there. -/
theorem C7_bounds_union (ea : ℕ) (w : World n) (h : 2 ≤ w.bvh.m_numItems) :
    (BVH.getBounds (BVH.build ea w).1).2 =
      ((List.finRange n).map (unionList ((List.range w.bvh.m_numItems).map fun i =>
          boxAt w.bvh.m_boxes i)).lo,
       (List.finRange n).map (unionList ((List.range w.bvh.m_numItems).map fun i =>
          boxAt w.bvh.m_boxes i)).hi) := by
  obtain ⟨hs, hn, hb, hm⟩ := build_preserves_input ea w
  have hbounds := buildCore_bounds (n := n) w.bvh.m_boxes w.bvh.m_numItems
    w.bvh.m_scaleFactor (by omega)
  show ((List.finRange n).map (BVH.build ea w).1.bvh.m_bvh.m_bounds.lo,
        (List.finRange n).map (BVH.build ea w).1.bvh.m_bvh.m_bounds.hi) = _
  rw [hm, hbounds]

/-- Claim C9, confirmed: `build()` and `find()` restore the process-wide
default allocator to its entry value before returning, and every allocation
they issue goes to the execution space's allocator that was swapped in on
entry. -/
theorem C9_allocator_frame (ea : ℕ) (w : World n) (pts : List (Fin n → ℚ)) :
    (BVH.build ea w).1.defaultAllocatorID = w.defaultAllocatorID ∧
    (BVH.build ea w).1.allocLog = w.allocLog ++
      List.replicate (if w.bvh.m_numItems = 1 then 2 else 1) ea ∧
    (BVH.find ea w pts).1.defaultAllocatorID = w.defaultAllocatorID ∧
    (BVH.find ea w pts).1.allocLog = w.allocLog ++ [ea] := by
  by_cases h : w.bvh.m_numItems = 1 <;>
    simp [BVH.build, BVH.find, axomAllocate, h, List.replicate]

/-- Claim C10, confirmed: `setScaleFactor` changes only the stored scale
factor - the built tree, the item count, the stored boxes, the allocator
state, the reported bounds and the results of subsequent `find()` calls are
all unchanged; the new factor takes effect only at the next `build()`, whose
tree is the one built with the new factor. -/
theorem C10_setScaleFactor_frame (s : ℚ) (ea : ℕ) (w : World n)
    (pts : List (Fin n → ℚ)) :
    (BVH.setScaleFactor s w).bvh.m_bvh = w.bvh.m_bvh ∧
    (BVH.setScaleFactor s w).bvh.m_numItems = w.bvh.m_numItems ∧
    (BVH.setScaleFactor s w).bvh.m_boxes = w.bvh.m_boxes ∧
    (BVH.setScaleFactor s w).bvh.m_scaleFactor = s ∧
    (BVH.setScaleFactor s w).defaultAllocatorID = w.defaultAllocatorID ∧
    (BVH.getBounds (BVH.setScaleFactor s w)).2 = (BVH.getBounds w).2 ∧
    (BVH.find ea (BVH.setScaleFactor s w) pts).2 = (BVH.find ea w pts).2 ∧
    (BVH.build ea (BVH.setScaleFactor s w)).1.bvh.m_bvh =
      BVH.buildCore w.bvh.m_boxes w.bvh.m_numItems s := by
  refine ⟨rfl, rfl, rfl, rfl, rfl, rfl, rfl, ?_⟩
  obtain ⟨hs, hn, hb, hm⟩ := build_preserves_input ea (BVH.setScaleFactor s w)
  exact hm

/-!  Concrete instances: the 3-unit-box scenario of the spec, a single-box
input, and a zero-item input. -/

/-- The flat buffer of the three unit boxes of the spec scenario. -/
def scenarioBoxes : List ℚ :=
  [0, 0, 0, 1, 1, 1, 5, 5, 5, 6, 6, 6, 10, 10, 10, 11, 11, 11]

/-- A 3D world holding the scenario BVH before building. -/
def scenarioWorld : World 3 := ⟨7, [], BVH.new scenarioBoxes 3⟩

/-- The three query points of the spec scenario. -/
def scenarioPts : List (Fin 3 → ℚ) :=
  [![1/2, 1/2, 1/2], ![11/2, 11/2, 11/2], ![100, 100, 100]]

/-- A single input box spanning (5,5,5) to (6,6,6). -/
def oneBoxFlat : List ℚ := [5, 5, 5, 6, 6, 6]

/-- A 3D world holding a single-item BVH before building. -/
def oneBoxWorld : World 3 := ⟨7, [], BVH.new oneBoxFlat 1⟩

/-- The origin query point. -/
def originPt : Fin 3 → ℚ := fun _ => 0

/-- A 3D world holding a zero-item BVH. -/
def emptyWorld : World 3 := ⟨7, [], BVH.new [] 0⟩

section ConcreteEvaluation

attribute [local semireducible] Rat.add Rat.mul Rat.sub Rat.inv

/-- Counterexample to claim C1 as stated: for the successfully built
single-item BVH over the box (5,5,5)-(6,6,6), the query at the origin gets
candidate index 1, which is not the index of any original input box (the
only original index is 0) - its source is the synthesized zero box. -/
theorem C1_counterexample :
    oneBoxWorld.bvh.m_numItems = 1 ∧
    1 ∈ csrCandidates (BVH.find 42 (BVH.build 42 oneBoxWorld).1 [originPt]).2 0 ∧
    ¬ (1 < oneBoxWorld.bvh.m_numItems) := by
  refine ⟨rfl, by decide, by decide⟩

/-- Witness for claim C1: the corrected theorem applied to the built
scenario BVH, query point (0.5, 0.5, 0.5) and candidate index 0. -/
theorem C1_witness :
    2 ≤ scenarioWorld.bvh.m_numItems ∧ 0 < scenarioPts.length ∧
    (0 ∈ csrCandidates (BVH.find 42 (BVH.build 42 scenarioWorld).1 scenarioPts).2 0 ↔
      (0 < scenarioWorld.bvh.m_numItems ∧
        ((boxAt scenarioWorld.bvh.m_boxes 0).expand
            scenarioWorld.bvh.m_scaleFactor).containsB
          (scenarioPts.getD 0 fun _ => 0) = true)) :=
  ⟨by decide, by decide,
    C1_find_exact_candidates 42 scenarioWorld scenarioPts 0 0 (by decide) (by decide)⟩

/-- Counterexample to claim C2 as stated: for a BVH constructed with
`numItems == 0`, `build()` does return `BVH_BUILD_OK`. -/
theorem C2_counterexample :
    emptyWorld.bvh.m_numItems = 0 ∧ (BVH.build 42 emptyWorld).2 = BVH_BUILD_OK :=
  ⟨rfl, rfl⟩

/-- Counterexample to claim C3 as stated: for the single-item BVH over the
box (5,5,5)-(6,6,6), `find()` at the origin returns the candidate list [1] -
a candidate index other than 0, showing that results beyond the true item
count are not discarded and that the synthesized second box is the zero box
rather than a duplicate of the input box. -/
theorem C3_counterexample :
    oneBoxWorld.bvh.m_numItems = 1 ∧
    (BVH.find 42 (BVH.build 42 oneBoxWorld).1 [originPt]).2.2.2 = [1] :=
  ⟨rfl, by decide⟩

/-- Witness for claim C3: the corrected theorem applied to the built
single-item BVH, the origin query point and candidate index 1. -/
theorem C3_witness :
    oneBoxWorld.bvh.m_numItems = 1 ∧ 0 < ([originPt] : List (Fin 3 → ℚ)).length ∧
    (1 ∈ csrCandidates (BVH.find 42 (BVH.build 42 oneBoxWorld).1 [originPt]).2 0 ↔
      ((1 = 0 ∧ ((boxAt oneBoxWorld.bvh.m_boxes 0).expand
            oneBoxWorld.bvh.m_scaleFactor).containsB
          (([originPt] : List (Fin 3 → ℚ)).getD 0 fun _ => 0) = true) ∨
       (1 = 1 ∧ ((zeroAABB 3).expand oneBoxWorld.bvh.m_scaleFactor).containsB
          (([originPt] : List (Fin 3 → ℚ)).getD 0 fun _ => 0) = true))) :=
  ⟨rfl, by decide,
    C3_single_item_candidates 42 oneBoxWorld [originPt] 0 1 rfl (by decide)⟩

/-- Witness for claim C4: the CSR consistency law applied to the built
scenario BVH and query index 1. -/
theorem C4_witness :
    1 < scenarioPts.length ∧
    ((BVH.find 42 (BVH.build 42 scenarioWorld).1 scenarioPts).2.2.2.length =
        (BVH.find 42 (BVH.build 42 scenarioWorld).1 scenarioPts).2.2.1.sum ∧
      (BVH.find 42 (BVH.build 42 scenarioWorld).1 scenarioPts).2.1.length =
        scenarioPts.length ∧
      (BVH.find 42 (BVH.build 42 scenarioWorld).1 scenarioPts).2.2.1.length =
        scenarioPts.length ∧
      (BVH.find 42 (BVH.build 42 scenarioWorld).1 scenarioPts).2.1[1]? =
        some (((BVH.find 42 (BVH.build 42 scenarioWorld).1 scenarioPts).2.2.1.take 1).sum)) :=
  ⟨by decide, C4_csr_consistency 42 (BVH.build 42 scenarioWorld).1 scenarioPts 1 (by decide)⟩

/-- Witness for claim C6: the shape invariant applied to the built scenario
BVH (3 boxes: 3 leaf slots and 2 inner records). -/
theorem C6_witness :
    1 < scenarioWorld.bvh.m_numItems ∧
    ((BVH.build 42 scenarioWorld).1.bvh.m_bvh.m_inner_nodes.length =
        scenarioWorld.bvh.m_numItems - 1 ∧
      (BVH.build 42 scenarioWorld).1.bvh.m_bvh.m_leaf_nodes.length =
        scenarioWorld.bvh.m_numItems ∧
      (BVH.find 42 (BVH.build 42 scenarioWorld).1 scenarioPts).1.bvh.m_bvh =
        (BVH.build 42 scenarioWorld).1.bvh.m_bvh ∧
      (BVH.getBounds (BVH.build 42 scenarioWorld).1).1.bvh.m_bvh =
        (BVH.build 42 scenarioWorld).1.bvh.m_bvh ∧
      (BVH.writeVtkFile (BVH.build 42 scenarioWorld).1).1.bvh.m_bvh =
        (BVH.build 42 scenarioWorld).1.bvh.m_bvh) :=
  ⟨by decide, C6_tree_shape 42 scenarioWorld scenarioPts (by decide)⟩

/-- Counterexample to claim C7 as stated: for the successfully built
single-item BVH over the box (5,5,5)-(6,6,6), `getBounds` does not return
the union of all input boxes - the bounds also absorb the synthesized zero
box, giving (0,0,0)-(6,6,6) instead of (5,5,5)-(6,6,6). -/
theorem C7_counterexample :
    (BVH.getBounds (BVH.build 42 oneBoxWorld).1).2 ≠
      ((List.finRange 3).map (unionList ((List.range oneBoxWorld.bvh.m_numItems).map
          fun i => boxAt (n := 3) oneBoxWorld.bvh.m_boxes i)).lo,
       (List.finRange 3).map (unionList ((List.range oneBoxWorld.bvh.m_numItems).map
          fun i => boxAt (n := 3) oneBoxWorld.bvh.m_boxes i)).hi) := by
  decide

/-- Witness for claim C7: the corrected bounds theorem applied to the built
scenario BVH. -/
theorem C7_witness :
    2 ≤ scenarioWorld.bvh.m_numItems ∧
    (BVH.getBounds (BVH.build 42 scenarioWorld).1).2 =
      ((List.finRange 3).map (unionList ((List.range scenarioWorld.bvh.m_numItems).map
          fun i => boxAt (n := 3) scenarioWorld.bvh.m_boxes i)).lo,
       (List.finRange 3).map (unionList ((List.range scenarioWorld.bvh.m_numItems).map
          fun i => boxAt (n := 3) scenarioWorld.bvh.m_boxes i)).hi) :=
  ⟨by decide, C7_bounds_union 42 scenarioWorld (by decide)⟩

/-- Claim C8, confirmed: for the 3D BVH over the three unit boxes
(0,0,0)-(1,1,1), (5,5,5)-(6,6,6), (10,10,10)-(11,11,11), `find()` on the
query points (0.5,0.5,0.5), (5.5,5.5,5.5) and (100,100,100) returns offsets
[0,1,2], counts [1,1,0] and candidates [0,1]: candidate set {0} for the
first point, {1} for the second, and the empty set with count 0 for the
third. -/
theorem C8_scenario :
    (BVH.find 42 (BVH.build 42 scenarioWorld).1 scenarioPts).2 =
      ([0, 1, 2], [1, 1, 0], [0, 1]) ∧
    csrCandidates (BVH.find 42 (BVH.build 42 scenarioWorld).1 scenarioPts).2 0 = [0] ∧
    csrCandidates (BVH.find 42 (BVH.build 42 scenarioWorld).1 scenarioPts).2 1 = [1] ∧
    csrCandidates (BVH.find 42 (BVH.build 42 scenarioWorld).1 scenarioPts).2 2 = [] := by
  refine ⟨by decide, by decide, by decide, by decide⟩

end ConcreteEvaluation

end AxomSpin
